import Mathlib

/-
Shallow embedding of the LeakMon secret detection engine
from src/secret_detector.py.

Modelling conventions, fixed once for the whole development:
- Python strings are modelled as List Char.  Case conversion and the
  whitespace set are modelled at ASCII level, which matches the Python
  behaviour on the ASCII pattern table and on all inputs discussed in
  the specification.
- Python float arithmetic on the constants 0.3, 0.6, 0.7, 0.9, 1.0 and
  1.2 is modelled by exact rational arithmetic; none of the comparisons
  performed by the code are near a floating point tie.
- math.log2 based Shannon entropy is modelled by Real.logb 2 over the
  real numbers.
- re.finditer with re.IGNORECASE is modelled by a backtracking matcher
  over a regular expression syntax tree with the Python preference
  order: alternatives left to right, greedy repetition longest first,
  and a non overlapping scan of start positions from left to right.
  The matcher carries explicit fuel; only soundness of reported match
  spans is used in the general theorems, and concrete runs are
  evaluated with generous fuel.
-/

/-- ASCII whitespace, the characters Python str.strip removes on ASCII text. -/
def isSpaceP (c : Char) : Bool :=
  c = ' ' || c = '\t' || c = '\n' || c = '\r' || c = '\x0b' || c = '\x0c'

/-- ASCII lower casing, modelling str.lower on the inputs in scope. -/
def toLowerA : Char → Char
  | 'A' => 'a' | 'B' => 'b' | 'C' => 'c' | 'D' => 'd' | 'E' => 'e' | 'F' => 'f'
  | 'G' => 'g' | 'H' => 'h' | 'I' => 'i' | 'J' => 'j' | 'K' => 'k' | 'L' => 'l'
  | 'M' => 'm' | 'N' => 'n' | 'O' => 'o' | 'P' => 'p' | 'Q' => 'q' | 'R' => 'r'
  | 'S' => 's' | 'T' => 't' | 'U' => 'u' | 'V' => 'v' | 'W' => 'w' | 'X' => 'x'
  | 'Y' => 'y' | 'Z' => 'z' | c => c

/-- ASCII upper casing, used for the IGNORECASE folding of the matcher. -/
def toUpperA : Char → Char
  | 'a' => 'A' | 'b' => 'B' | 'c' => 'C' | 'd' => 'D' | 'e' => 'E' | 'f' => 'F'
  | 'g' => 'G' | 'h' => 'H' | 'i' => 'I' | 'j' => 'J' | 'k' => 'K' | 'l' => 'L'
  | 'm' => 'M' | 'n' => 'N' | 'o' => 'O' | 'p' => 'P' | 'q' => 'Q' | 'r' => 'R'
  | 's' => 'S' | 't' => 'T' | 'u' => 'U' | 'v' => 'V' | 'w' => 'W' | 'x' => 'X'
  | 'y' => 'Y' | 'z' => 'Z' | c => c

/-- str.lower over a whole line. -/
def lowerL (l : List Char) : List Char := l.map toLowerA

/-- str.strip: drop ASCII whitespace at both ends. -/
def trimL (l : List Char) : List Char :=
  ((l.dropWhile isSpaceP).reverse.dropWhile isSpaceP).reverse

/-- Needle is a leading block of the haystack, character by character. -/
def startsWithL : List Char → List Char → Bool
  | [], _ => true
  | _ :: _, [] => false
  | a :: as, b :: bs => a = b && startsWithL as bs

/-- The Python substring test, needle in haystack. -/
def containsSub (n : List Char) : List Char → Bool
  | [] => n.isEmpty
  | c :: t => startsWithL n (c :: t) || containsSub n t

/-- str.split on a line feed; an empty text gives one empty line and a
trailing line feed gives a trailing empty line, as in Python. -/
def splitNL : List Char → List (List Char)
  | [] => [[]]
  | c :: t =>
    if c = '\n' then [] :: splitNL t
    else
      match splitNL t with
      | [] => [[c]]
      | h :: r => (c :: h) :: r

/-- Word characters of the regex metacharacter for word boundaries. -/
def isWordChar (c : Char) : Bool := c.isAlphanum || c = '_'

/-- The base64 style character class of the entropy scanner. -/
def isB64 (c : Char) : Bool := c.isAlphanum || c = '+' || c = '/'

/- ------------------------------------------------------------------
Regular expression syntax trees and the backtracking matcher.
------------------------------------------------------------------ -/

/-- Syntax of the regex fragment used by the pattern registry. -/
inductive RE where
  | eps : RE
  | cls (p : Char → Bool) : RE
  | wb : RE
  | seq (a b : RE) : RE
  | alt (a b : RE) : RE
  | rep (r : RE) (lo : ℕ) (hi : Option ℕ) : RE

/-- IGNORECASE folding: a class accepts a character if the character or
one of its ASCII case variants is accepted. -/
def matchIC (p : Char → Bool) (c : Char) : Bool :=
  p c || p (toLowerA c) || p (toUpperA c)

/-- Is the character at an index a word character; out of range is not. -/
def wAt (s : List Char) (k : ℕ) : Bool :=
  match s[k]? with
  | some c => isWordChar c
  | none => false

/-- A word boundary holds where exactly one neighbouring side is a word
character. -/
def wordBoundaryB (s : List Char) (i : ℕ) : Bool :=
  (decide (0 < i) && wAt s (i - 1)) != wAt s i

/-- All possible end positions of a match of the regex starting at the
given position, listed in backtracking preference order: the head of the
list is the end position the Python engine reports.  The first argument
is fuel; it only bounds the recursion depth. -/
def ends : ℕ → RE → List Char → ℕ → List ℕ
  | 0, _, _, _ => []
  | _ + 1, .eps, _, i => [i]
  | _ + 1, .cls p, s, i =>
    match s[i]? with
    | some c => if matchIC p c then [i + 1] else []
    | none => []
  | _ + 1, .wb, s, i => if wordBoundaryB s i then [i] else []
  | f + 1, .seq a b, s, i => (ends f a s i).flatMap (fun j => ends f b s j)
  | f + 1, .alt a b, s, i => ends f a s i ++ ends f b s i
  | f + 1, .rep r lo hi, s, i =>
    match hi with
    | some 0 => if lo = 0 then [i] else []
    | _ =>
      let more := (ends f r s i).flatMap
        (fun j => ends f (.rep r (lo - 1) (hi.map (fun n => n - 1))) s j)
      if lo = 0 then more ++ [i] else more

/-- The least number of characters any match of the regex consumes. -/
def minLen : RE → ℕ
  | .eps => 0
  | .cls _ => 1
  | .wb => 0
  | .seq a b => minLen a + minLen b
  | .alt a b => min (minLen a) (minLen b)
  | .rep r lo _ => lo * minLen r

/-- Structural size of a regex, used to compute a sufficient fuel. -/
def sizeRE : RE → ℕ
  | .eps => 1
  | .cls _ => 1
  | .wb => 1
  | .seq a b => sizeRE a + sizeRE b + 1
  | .alt a b => sizeRE a + sizeRE b + 1
  | .rep r _ _ => sizeRE r + 1

/-- Generous fuel for a scan of the given subject. -/
def fuelFor (re : RE) (s : List Char) : ℕ :=
  (s.length + 2) * (sizeRE re + 2)

/-- One scan step of finditer: at each start position try a match, on
success report the span and continue behind it, otherwise advance one
position. -/
def findGo (re : RE) (s : List Char) : ℕ → ℕ → List (ℕ × ℕ)
  | 0, _ => []
  | f + 1, i =>
    if s.length < i then []
    else
      match (ends (fuelFor re s) re s i).head? with
      | none => findGo re s f (i + 1)
      | some j => (i, j) :: findGo re s f (if j ≤ i then i + 1 else j)

/-- re.finditer: the non overlapping left to right matches of a regex. -/
def finditer (re : RE) (s : List Char) : List (ℕ × ℕ) :=
  findGo re s (s.length + 1) 0

/- ------------------------------------------------------------------
Data model of the detector.
------------------------------------------------------------------ -/

inductive SeverityLevel where
  | low
  | medium
  | high
deriving DecidableEq

/-- One detected secret, the Detection dataclass of the source. -/
structure Detection where
  type : String
  value : List Char
  line_number : ℕ
  column_start : ℕ
  column_end : ℕ
  severity : SeverityLevel
  confidence : ℝ
  context : List Char

/-- One registry entry: the source stores these as dictionaries with an
optional context_required key. -/
structure PatternSpec where
  name : String
  re : RE
  severity : SeverityLevel
  description : String
  context_required : Option (List String)

/-- A single character literal. -/
def chR (c : Char) : RE := .cls (fun x => x = c)

def seqAll (l : List RE) : RE := l.foldr RE.seq RE.eps

def strR (s : String) : RE := seqAll (s.data.map chR)

def altAll : List RE → RE
  | [] => .cls (fun _ => false)
  | [r] => r
  | r :: rest => .alt r (altAll rest)

/-- A fixed count of digits. -/
def digits (n : ℕ) : RE := .rep (.cls Char.isDigit) n (some n)

def awsAccessKeyRE : RE :=
  .seq (strR ("AKIA")) (.rep (.cls (fun c => c.isDigit || c.isUpper)) 16 (some 16))

def awsSecretKeyRE : RE :=
  .rep (.cls (fun c => c.isAlphanum || c = '/' || c = '+' || c = '=')) 40 (some 40)

def privateKeyRE : RE :=
  seqAll [strR ("-----BEGIN"), .rep (.cls isSpaceP) 1 none,
    .rep (.seq (strR ("RSA")) (.rep (.cls isSpaceP) 1 none)) 0 (some 1),
    strR ("PRIVATE KEY-----")]

def jwtClsB (c : Char) : Bool := c.isAlphanum || c = '_' || c = '-'

def jwtTokenRE : RE :=
  seqAll [strR ("eyJ"), .rep (.cls jwtClsB) 0 none, chR '.',
    strR ("eyJ"), .rep (.cls jwtClsB) 0 none, chR '.', .rep (.cls jwtClsB) 0 none]

def githubTokenRE : RE :=
  .seq (strR ("ghp_")) (.rep (.cls Char.isAlphanum) 36 (some 36))

def openaiApiKeyRE : RE :=
  .seq (strR ("sk-")) (.rep (.cls Char.isAlphanum) 48 (some 48))

def stripeKeyRE : RE :=
  .seq (strR ("sk_live_")) (.rep (.cls Char.isAlphanum) 24 (some 24))

def slackTokenRE : RE :=
  seqAll [strR ("xox"),
    .cls (fun c => c = 'b' || c = 'a' || c = 'p' || c = 'r' || c = 's'),
    chR '-', .rep (.cls (fun c => c.isAlphanum || c = '-')) 1 none]

def databaseUrlRE : RE :=
  seqAll [altAll [strR ("mysql"), strR ("postgresql"), strR ("mongodb")],
    strR ("://"), .rep (.cls (fun c => !(c = ':'))) 1 none, chR ':',
    .rep (.cls (fun c => !(c = '@'))) 1 none, chR '@',
    .rep (.cls (fun c => !(c = '/'))) 1 none]

def emailLocalB (c : Char) : Bool :=
  c.isAlphanum || c = '.' || c = '_' || c = '%' || c = '+' || c = '-'

def emailDomB (c : Char) : Bool := c.isAlphanum || c = '.' || c = '-'

/-- The source class A to Z bar a to z keeps the literal bar character. -/
def emailTldB (c : Char) : Bool := c.isAlpha || c = '|'

def emailRE : RE :=
  seqAll [.wb, .rep (.cls emailLocalB) 1 none, chR '@',
    .rep (.cls emailDomB) 1 none, chR '.', .rep (.cls emailTldB) 2 none, .wb]

def phoneNumberRE : RE :=
  .alt (seqAll [.wb, digits 3, chR '-', digits 3, chR '-', digits 4, .wb])
    (seqAll [.wb, chR '(', digits 3, chR ')', .rep (.cls isSpaceP) 0 none,
      digits 3, chR '-', digits 4, .wb])

def creditCardRE : RE :=
  seqAll [.wb,
    altAll [seqAll [chR '4', digits 12, .rep (digits 3) 0 (some 1)],
      seqAll [chR '5', .cls (fun c => '1' ≤ c && c ≤ '5'), digits 14],
      seqAll [chR '3', .cls (fun c => c = '4' || c = '7'), digits 13],
      seqAll [chR '3', digits 13],
      seqAll [chR '6', .alt (strR ("011")) (.seq (chR '5') (digits 2)), digits 12]],
    .wb]

def ssnRE : RE :=
  seqAll [.wb, digits 3, chR '-', digits 2, chR '-', digits 4, .wb]

/-- The pattern registry of the source, in dictionary insertion order.
Python names carry a leading underscore on the private methods; the
underscore is dropped here. -/
def load_patterns : List PatternSpec :=
  [⟨"aws_access_key", awsAccessKeyRE, .high, "AWS Access Key ID", none⟩,
   ⟨"aws_secret_key", awsSecretKeyRE, .high, "AWS Secret Access Key",
     some ["aws", "secret", "key"]⟩,
   ⟨"private_key", privateKeyRE, .high, "Private Key", none⟩,
   ⟨"jwt_token", jwtTokenRE, .high, "JWT Token", none⟩,
   ⟨"github_token", githubTokenRE, .medium, "GitHub Personal Access Token", none⟩,
   ⟨"openai_api_key", openaiApiKeyRE, .medium, "OpenAI API Key", none⟩,
   ⟨"stripe_key", stripeKeyRE, .medium, "Stripe Live Secret Key", none⟩,
   ⟨"slack_token", slackTokenRE, .medium, "Slack Token", none⟩,
   ⟨"database_url", databaseUrlRE, .medium, "Database Connection String", none⟩,
   ⟨"email", emailRE, .low, "Email Address", none⟩,
   ⟨"phone_number", phoneNumberRE, .low, "Phone Number", none⟩,
   ⟨"credit_card", creditCardRE, .medium, "Credit Card Number", none⟩,
   ⟨"ssn", ssnRE, .medium, "Social Security Number", none⟩]

/-- The detector instance state set up by the constructor. -/
structure SecretDetector where
  patterns : List PatternSpec
  entropy_threshold : ℚ

/-- The constructor of the source class. -/
def SecretDetector.init : SecretDetector := ⟨load_patterns, 9/2⟩

/- ------------------------------------------------------------------
The detection pipeline.
------------------------------------------------------------------ -/

/-- Python sliceL line from a to b. -/
def sliceL (l : List Char) (a b : ℕ) : List Char := (l.drop a).take (b - a)

/-- Shannon entropy of a string, the calculate_entropy method. -/
noncomputable def calculate_entropy (text : List Char) : ℝ :=
  if text = [] then 0
  else ∑ c ∈ text.toFinset,
    -(((text.count c : ℝ) / (text.length : ℝ)) *
      Real.logb 2 ((text.count c : ℝ) / (text.length : ℝ)))

/-- Candidate extraction of the entropy scanner: the non overlapping left
to right matches of twenty or more base64 alphabet characters followed by
at most two padding equals signs, each reported with its start offset. -/
def extractGo : ℕ → List Char → ℕ → List (ℕ × List Char)
  | 0, _, _ => []
  | _ + 1, [], _ => []
  | f + 1, c :: rest, i =>
    if isB64 c then
      let run := (c :: rest).takeWhile isB64
      let pads := (((c :: rest).drop run.length).takeWhile (fun x => x = '=')).take 2
      if 20 ≤ run.length then
        (i, run ++ pads) ::
          extractGo f ((c :: rest).drop (run.length + pads.length))
            (i + run.length + pads.length)
      else extractGo f ((c :: rest).drop run.length) (i + run.length)
    else extractGo f rest (i + 1)

def extractCandidates (line : List Char) : List (ℕ × List Char) :=
  extractGo (line.length + 1) line 0

open scoped Classical in
/-- The detect_high_entropy_strings method. -/
noncomputable def SecretDetector.detect_high_entropy_strings
    (d : SecretDetector) (text : List Char) (line_number : ℕ) : List Detection :=
  (extractCandidates text).filterMap (fun m =>
    if (d.entropy_threshold : ℝ) < calculate_entropy m.2 ∧ 20 < m.2.length then
      some ⟨"high_entropy_string", m.2, line_number, m.1, m.1 + m.2.length,
        .medium, min (calculate_entropy m.2 / 6) 1, trimL text⟩
    else none)

/-- The should_skip_line method. -/
def should_skip_line (line : List Char) : Bool :=
  let l := lowerL (trimL line)
  if l.isEmpty then true
  else if startsWithL ['#'] l || startsWithL ['/', '/'] l || startsWithL ['/', '*'] l then
    true
  else if ["example", "test", "dummy", "fake", "sample", "placeholder"].any
      (fun w => containsSub w.data l) then
    true
  else false

/-- The check_context method. -/
def check_context (lineLower : List Char) (required_keywords : List String) : Bool :=
  required_keywords.any (fun k => containsSub k.data lineLower)

/-- The calculate_confidence method; floats become exact rationals. -/
def calculate_confidence (pattern_name : String) (value : List Char)
    (context : List Char) : ℚ :=
  let base0 : ℚ :=
    if pattern_name ∈ (["aws_access_key", "github_token", "openai_api_key"] : List String)
    then 9/10
    else if pattern_name ∈ (["email", "phone_number"] : List String) then 3/5
    else 7/10
  let contextLower := lowerL context
  let base1 : ℚ :=
    if (["test", "example", "dummy", "fake"] : List String).any
        (fun w => containsSub w.data contextLower)
    then base0 * (3/10) else base0
  if (["prod", "production", "live", "api_key"] : List String).any
      (fun w => containsSub w.data contextLower)
  then min (base1 * (6/5)) 1 else base1

/-- The named pattern part of the per line body of scan_text. -/
noncomputable def pattern_detections (d : SecretDetector) (line : List Char)
    (line_number : ℕ) : List Detection :=
  d.patterns.flatMap (fun ps =>
    (finditer ps.re line).filterMap (fun m =>
      if (match ps.context_required with
          | some kws => check_context (lowerL line) kws
          | none => true) then
        if 3/10 < calculate_confidence ps.name (sliceL line m.1 m.2) line then
          some ⟨ps.name, sliceL line m.1 m.2, line_number, m.1, m.2, ps.severity,
            (calculate_confidence ps.name (sliceL line m.1 m.2) line : ℝ), trimL line⟩
        else none
      else none))

/-- The body of the per line loop of scan_text. -/
noncomputable def scan_line (d : SecretDetector) (line_number : ℕ)
    (line : List Char) : List Detection :=
  if should_skip_line line then []
  else pattern_detections d line line_number ++
    d.detect_high_entropy_strings line line_number

/-- The scan_text method: split into lines numbered from one and collect
the per line detections in order. -/
noncomputable def SecretDetector.scan_text (d : SecretDetector)
    (text : List Char) : List Detection :=
  (List.enumFrom 1 (splitNL text)).flatMap (fun p => scan_line d p.1 p.2)

/-- Modelled from the spec: the reference confidence scorer of section
4.3 of the specification, written following the words of claim C1. -/
def confidenceSpec (patternName : String) (matchedValue lineContext : List Char) : ℚ :=
  let base : ℚ :=
    if patternName = "aws_access_key" ∨ patternName = "github_token" ∨
        patternName = "openai_api_key" then 9/10
    else if patternName = "email" ∨ patternName = "phone_number" then 3/5
    else 7/10
  let afterTest : ℚ :=
    if (["test", "example", "dummy", "fake"] : List String).any
        (fun w => containsSub w.data (lowerL lineContext)) then base * (3/10)
    else base
  if (["prod", "production", "live", "api_key"] : List String).any
      (fun w => containsSub w.data (lowerL lineContext)) then
    min (afterTest * (6/5)) 1
  else afterTest

open scoped Classical in
/-- The claim C10 variant of the entropy detector, identical to the
source function except that the explicit length conjunct is removed. -/
noncomputable def detect_high_entropy_noLength (d : SecretDetector) (text : List Char)
    (line_number : ℕ) : List Detection :=
  (extractCandidates text).filterMap (fun m =>
    if (d.entropy_threshold : ℝ) < calculate_entropy m.2 then
      some ⟨"high_entropy_string", m.2, line_number, m.1, m.1 + m.2.length,
        .medium, min (calculate_entropy m.2 / 6) 1, trimL text⟩
    else none)

/-- The ordering invariant of the aggregated scan result: line numbers
are ascending, and on a common line a pattern detection never follows an
entropy detection. -/
def detOrder (d1 d2 : Detection) : Prop :=
  d1.line_number ≤ d2.line_number ∧
    (d1.line_number = d2.line_number →
      d1.type = "high_entropy_string" → d2.type = "high_entropy_string")

/-- The single detection produced for the AKIA test vector of the
specification. -/
noncomputable def awsDetection : Detection :=
  ⟨"aws_access_key", ("AKIA1234567890ABCD1X").data, 1, 0, 20, .high,
    ((9/10 : ℚ) : ℝ), ("AKIA1234567890ABCD1X").data⟩

/- ------------------------------------------------------------------
Soundness of the matcher: every reported end position lies at least
minLen beyond the start position, whatever the fuel.
------------------------------------------------------------------ -/

theorem mem_ends_le (f : ℕ) : ∀ (re : RE) (s : List Char) (i j : ℕ),
    j ∈ ends f re s i → i + minLen re ≤ j := by
  induction f with
  | zero => intro re s i j h; simp [ends] at h
  | succ f ih =>
    intro re s i j h
    cases re with
    | eps => simp [ends, minLen] at h ⊢; omega
    | cls p =>
      cases hg : s[i]? with
      | none => simp [ends, hg] at h
      | some c =>
        by_cases hm : matchIC p c
        · simp [ends, hg, hm] at h; simp [minLen]; omega
        · simp [ends, hg, hm] at h
    | wb =>
      by_cases hb : wordBoundaryB s i
      · simp [ends, hb] at h; simp [minLen]; omega
      · simp [ends, hb] at h
    | seq a b =>
      simp [ends] at h
      obtain ⟨j1, hj1, hj⟩ := h
      have h1 := ih a s i j1 hj1
      have h2 := ih b s j1 j hj
      simp [minLen]; omega
    | alt a b =>
      simp [ends] at h
      rcases h with h | h
      · have := ih a s i j h; simp [minLen]; omega
      · have := ih b s i j h; simp [minLen]; omega
    | rep r lo hi =>
      rcases hi with _ | n
      · simp only [ends] at h
        by_cases h0 : lo = 0
        · subst h0
          simp at h
          rcases h with h | h
          · obtain ⟨j1, hj1, hj⟩ := h
            have h1 := ih r s i j1 hj1
            have h2 := ih (.rep r 0 none) s j1 j hj
            simp [minLen] at h2 ⊢; omega
          · simp [minLen]; omega
        · simp [h0] at h
          obtain ⟨j1, hj1, hj⟩ := h
          have h1 := ih r s i j1 hj1
          have h2 := ih (.rep r (lo - 1) none) s j1 j hj
          simp [minLen] at h2 ⊢
          have hmul : lo * minLen r = (lo - 1) * minLen r + minLen r := by
            have hlo : lo - 1 + 1 = lo := Nat.succ_pred_eq_of_pos (Nat.pos_of_ne_zero h0)
            calc lo * minLen r = (lo - 1 + 1) * minLen r := by rw [hlo]
              _ = (lo - 1) * minLen r + minLen r := by rw [Nat.succ_mul]
          omega
      · rcases n with _ | n
        · simp only [ends] at h
          by_cases h0 : lo = 0
          · subst h0; simp at h; simp [minLen]; omega
          · simp [h0] at h
        · simp only [ends] at h
          by_cases h0 : lo = 0
          · subst h0
            simp at h
            rcases h with h | h
            · obtain ⟨j1, hj1, hj⟩ := h
              have h1 := ih r s i j1 hj1
              have h2 := ih (.rep r 0 (some n)) s j1 j hj
              simp [minLen] at h2 ⊢; omega
            · simp [minLen]; omega
          · simp [h0] at h
            obtain ⟨j1, hj1, hj⟩ := h
            have h1 := ih r s i j1 hj1
            have h2 := ih (.rep r (lo - 1) (some n)) s j1 j hj
            simp [minLen] at h2 ⊢
            have hmul : lo * minLen r = (lo - 1) * minLen r + minLen r := by
              have hlo : lo - 1 + 1 = lo := Nat.succ_pred_eq_of_pos (Nat.pos_of_ne_zero h0)
              calc lo * minLen r = (lo - 1 + 1) * minLen r := by rw [hlo]
                _ = (lo - 1) * minLen r + minLen r := by rw [Nat.succ_mul]
            omega

theorem mem_findGo_le (re : RE) (s : List Char) :
    ∀ (f i : ℕ) (p : ℕ × ℕ), p ∈ findGo re s f i → p.1 + minLen re ≤ p.2 := by
  intro f
  induction f with
  | zero => intro i p h; simp [findGo] at h
  | succ f ih =>
    intro i p h
    rw [findGo] at h
    split at h
    · simp at h
    · cases hE : (ends (fuelFor re s) re s i).head? with
      | none => rw [hE] at h; exact ih _ p h
      | some j =>
        rw [hE] at h
        rcases List.mem_cons.mp h with h | h
        · subst h
          have hj : j ∈ ends (fuelFor re s) re s i := by
            cases hl : ends (fuelFor re s) re s i with
            | nil => rw [hl] at hE; simp at hE
            | cons a t =>
              rw [hl] at hE
              simp at hE
              subst hE
              exact List.mem_cons_self a t
          exact mem_ends_le _ re s i j hj
        · exact ih _ p h

theorem finditer_sound (re : RE) (s : List Char) (p : ℕ × ℕ)
    (h : p ∈ finditer re s) : p.1 + minLen re ≤ p.2 :=
  mem_findGo_le re s _ 0 p h

/-- Every registry pattern consumes at least one character on a match. -/
theorem load_patterns_minLen : ∀ ps ∈ load_patterns, 1 ≤ minLen ps.re := by decide

/-- No registry pattern carries the entropy detector label. -/
theorem load_patterns_name : ∀ ps ∈ load_patterns, ps.name ≠ "high_entropy_string" := by
  decide

/- ------------------------------------------------------------------
Specifications of the string helpers.
------------------------------------------------------------------ -/

theorem startsWithL_iff (n : List Char) : ∀ (h : List Char),
    startsWithL n h = true ↔ ∃ t, h = n ++ t := by
  induction n with
  | nil => intro h; simp [startsWithL]
  | cons a as ih =>
    intro h
    cases h with
    | nil => simp [startsWithL]
    | cons b bs =>
      constructor
      · intro hs
        simp [startsWithL] at hs
        obtain ⟨rfl, hsw⟩ := hs
        obtain ⟨t, rfl⟩ := (ih bs).mp hsw
        exact ⟨t, rfl⟩
      · rintro ⟨t, ht⟩
        simp at ht
        simp [startsWithL, ht.1, (ih bs).mpr ⟨t, ht.2⟩]

theorem containsSub_iff (n : List Char) : ∀ (h : List Char),
    containsSub n h = true ↔ ∃ a b, h = a ++ n ++ b := by
  intro h
  induction h with
  | nil =>
    constructor
    · intro he
      have hn : n = [] := List.isEmpty_iff.mp (by simpa [containsSub] using he)
      exact ⟨[], [], by simp [hn]⟩
    · rintro ⟨a, b, hab⟩
      have hlen := congrArg List.length hab
      simp at hlen
      have hn : n = [] := List.length_eq_zero.mp (by omega)
      simp [containsSub, hn]
  | cons c t ih =>
    constructor
    · intro hcs
      simp only [containsSub, Bool.or_eq_true] at hcs
      rcases hcs with hs | hc
      · obtain ⟨r, hr⟩ := (startsWithL_iff n (c :: t)).mp hs
        exact ⟨[], r, by simpa using hr⟩
      · obtain ⟨a, b, rfl⟩ := ih.mp hc
        exact ⟨c :: a, b, rfl⟩
    · rintro ⟨a, b, hab⟩
      cases a with
      | nil =>
        simp at hab
        have hsw : startsWithL n (c :: t) = true :=
          (startsWithL_iff n (c :: t)).mpr ⟨b, by simpa using hab⟩
        simp [containsSub, hsw]
      | cons x xs =>
        simp at hab
        have hct : containsSub n t = true := ih.mpr ⟨xs, b, by simp [hab.2]⟩
        simp [containsSub, hct]

theorem isSpaceP_toLowerA (c : Char) : isSpaceP (toLowerA c) = isSpaceP c := by
  unfold toLowerA
  split <;> rfl

theorem dropWhile_lowerL (l : List Char) :
    (lowerL l).dropWhile isSpaceP = lowerL (l.dropWhile isSpaceP) := by
  induction l with
  | nil => rfl
  | cons c t ih =>
    simp only [lowerL, List.map_cons, List.dropWhile_cons, isSpaceP_toLowerA]
    by_cases hc : isSpaceP c
    · simpa [hc] using ih
    · simp [hc, lowerL]

theorem trimL_lowerL (l : List Char) : trimL (lowerL l) = lowerL (trimL l) := by
  unfold trimL
  rw [dropWhile_lowerL]
  rw [show (lowerL (l.dropWhile isSpaceP)).reverse = lowerL (l.dropWhile isSpaceP).reverse
    from (List.map_reverse toLowerA _).symm]
  rw [dropWhile_lowerL]
  rw [show (lowerL ((l.dropWhile isSpaceP).reverse.dropWhile isSpaceP)).reverse
      = lowerL ((l.dropWhile isSpaceP).reverse.dropWhile isSpaceP).reverse
    from (List.map_reverse toLowerA _).symm]

theorem containsSub_dropWhile (n : List Char) (hne : n ≠ [])
    (hns : ∀ c ∈ n, isSpaceP c = false) :
    ∀ (l : List Char), containsSub n l = true →
      containsSub n (l.dropWhile isSpaceP) = true := by
  intro l
  induction l with
  | nil => intro h; simpa [containsSub] using h
  | cons c t ih =>
    intro h
    by_cases hc : isSpaceP c
    · rw [List.dropWhile_cons_of_pos hc]
      apply ih
      simp only [containsSub, Bool.or_eq_true] at h
      rcases h with h | h
      · exfalso
        cases n with
        | nil => exact hne rfl
        | cons x xs =>
          simp [startsWithL] at h
          have hx := hns x (List.mem_cons_self x xs)
          rw [h.1] at hx
          rw [hx] at hc
          exact Bool.false_ne_true hc
      · exact h
    · rwa [List.dropWhile_cons_of_neg hc]

theorem containsSub_reverse (n l : List Char) (h : containsSub n l = true) :
    containsSub n.reverse l.reverse = true := by
  obtain ⟨a, b, rfl⟩ := (containsSub_iff n l).mp h
  apply (containsSub_iff _ _).mpr
  exact ⟨b.reverse, a.reverse, by simp⟩

theorem containsSub_trimL (n : List Char) (hne : n ≠ [])
    (hns : ∀ c ∈ n, isSpaceP c = false) (l : List Char)
    (h : containsSub n l = true) : containsSub n (trimL l) = true := by
  have h1 := containsSub_dropWhile n hne hns l h
  have h2 := containsSub_reverse _ _ h1
  have h3 := containsSub_dropWhile n.reverse (by simpa using hne)
    (by intro c hc; exact hns c (List.mem_reverse.mp hc)) _ h2
  have h4 := containsSub_reverse _ _ h3
  simpa [trimL] using h4

/-- A non skipped line contains none of the line filter keywords. -/
theorem skip_false_no_kw (line : List Char) (hs : should_skip_line line = false) :
    ∀ w ∈ (["example", "test", "dummy", "fake", "sample", "placeholder"] : List String),
      containsSub w.data (lowerL (trimL line)) = false := by
  intro w hw
  simp only [should_skip_line] at hs
  split_ifs at hs with h1 h2 h3
  rw [List.any_eq_true] at h3
  exact Bool.eq_false_iff.mpr (fun hcontra => h3 ⟨w, hw, hcontra⟩)

/-- A line whose lowered form contains a de-weighting keyword is always
skipped by the line filter, because the de-weighting keywords are a
subset of the line filter keywords and both tests are substring tests. -/
theorem kw_in_line_skips (line : List Char)
    (h : (["test", "example", "dummy", "fake"] : List String).any
      (fun w => containsSub w.data (lowerL line)) = true) :
    should_skip_line line = true := by
  rw [List.any_eq_true] at h
  obtain ⟨w, hw, hc⟩ := h
  by_contra hns
  have hs : should_skip_line line = false := Bool.eq_false_iff.mpr hns
  have hp := (show ∀ w ∈ (["test", "example", "dummy", "fake"] : List String),
      w.data ≠ [] ∧ (∀ c ∈ w.data, isSpaceP c = false) ∧
      w ∈ (["example", "test", "dummy", "fake", "sample", "placeholder"] : List String)
    by decide) w hw
  have htrim : containsSub w.data (trimL (lowerL line)) = true :=
    containsSub_trimL w.data hp.1 hp.2.1 (lowerL line) hc
  rw [trimL_lowerL] at htrim
  rw [skip_false_no_kw line hs w hp.2.2] at htrim
  exact Bool.false_ne_true htrim

/- ------------------------------------------------------------------
Confidence scorer facts.
------------------------------------------------------------------ -/

theorem calculate_confidence_bounds (pattern_name : String) (value context : List Char) :
    0 ≤ calculate_confidence pattern_name value context ∧
      calculate_confidence pattern_name value context ≤ 1 := by
  unfold calculate_confidence
  by_cases h1 : pattern_name ∈ (["aws_access_key", "github_token", "openai_api_key"] : List String) <;>
    by_cases h2 : pattern_name ∈ (["email", "phone_number"] : List String) <;>
    by_cases h3 : (["test", "example", "dummy", "fake"] : List String).any
      (fun w => containsSub w.data (lowerL context)) = true <;>
    by_cases h4 : (["prod", "production", "live", "api_key"] : List String).any
      (fun w => containsSub w.data (lowerL context)) = true <;>
    simp only [h1, h2, h3, h4, if_true, if_false] <;>
    constructor <;> norm_num [min_def]

/-- On a line the filter does not skip, the de-weighting branch of the
scorer can not fire, so the confidence is one of six values, all above
the emission threshold. -/
theorem calculate_confidence_of_not_skip (pattern_name : String)
    (value context : List Char) (hs : should_skip_line context = false) :
    calculate_confidence pattern_name value context ∈
        ([3/5, 7/10, 9/10, 18/25, 21/25, 1] : List ℚ) ∧
      3/10 < calculate_confidence pattern_name value context := by
  have hdw : (["test", "example", "dummy", "fake"] : List String).any
      (fun w => containsSub w.data (lowerL context)) = false := by
    by_contra hany
    have := kw_in_line_skips context (Bool.eq_true_of_not_eq_false hany)
    rw [hs] at this
    exact Bool.false_ne_true this
  unfold calculate_confidence
  by_cases h1 : pattern_name ∈ (["aws_access_key", "github_token", "openai_api_key"] : List String) <;>
    by_cases h2 : pattern_name ∈ (["email", "phone_number"] : List String) <;>
    by_cases h4 : (["prod", "production", "live", "api_key"] : List String).any
      (fun w => containsSub w.data (lowerL context)) = true <;>
    simp only [h1, h2, h4, hdw, Bool.false_eq_true, if_true, if_false] <;>
    constructor <;> norm_num [min_def, List.mem_cons]

/- ------------------------------------------------------------------
Entropy facts: nonnegativity, the logarithmic upper bound, and the
numeric bound that makes the explicit length check redundant.
------------------------------------------------------------------ -/

theorem calculate_entropy_nonneg (text : List Char) : 0 ≤ calculate_entropy text := by
  unfold calculate_entropy
  split_ifs with h
  · norm_num
  · apply Finset.sum_nonneg
    intro c hc
    have hlen : 0 < (text.length : ℝ) := by
      exact_mod_cast List.length_pos.mpr h
    have hcount1 : 0 < text.count c := List.count_pos_iff.mpr (List.mem_toFinset.mp hc)
    have hcountlen : text.count c ≤ text.length := List.count_le_length _ _
    have hp0 : 0 < (text.count c : ℝ) / (text.length : ℝ) := by
      apply div_pos _ hlen
      exact_mod_cast hcount1
    have hp1 : (text.count c : ℝ) / (text.length : ℝ) ≤ 1 := by
      rw [div_le_one hlen]
      exact_mod_cast hcountlen
    have hlog : Real.logb 2 ((text.count c : ℝ) / (text.length : ℝ)) ≤ 0 :=
      Real.logb_nonpos (by norm_num) hp0.le hp1
    nlinarith [hp0.le, hlog]

theorem calculate_entropy_le_logb (text : List Char) :
    calculate_entropy text ≤ Real.logb 2 (text.length : ℝ) := by
  unfold calculate_entropy
  split_ifs with h
  · subst h
    simp [Real.logb_zero]
  · have hlen : 0 < (text.length : ℝ) := by
      exact_mod_cast List.length_pos.mpr h
    have hstep : ∀ c ∈ text.toFinset,
        -(((text.count c : ℝ) / (text.length : ℝ)) *
            Real.logb 2 ((text.count c : ℝ) / (text.length : ℝ)))
          ≤ ((text.count c : ℝ) / (text.length : ℝ)) * Real.logb 2 (text.length : ℝ) := by
      intro c hc
      have hcount1 : 0 < text.count c := List.count_pos_iff.mpr (List.mem_toFinset.mp hc)
      have hcount1R : (1 : ℝ) ≤ (text.count c : ℝ) := by exact_mod_cast hcount1
      have hcpos : 0 < (text.count c : ℝ) := by linarith
      have hp0 : 0 < (text.count c : ℝ) / (text.length : ℝ) := div_pos hcpos hlen
      have hneg : -(((text.count c : ℝ) / (text.length : ℝ)) *
            Real.logb 2 ((text.count c : ℝ) / (text.length : ℝ)))
          = ((text.count c : ℝ) / (text.length : ℝ)) *
            Real.logb 2 (((text.count c : ℝ) / (text.length : ℝ))⁻¹) := by
        rw [Real.logb_inv]
        ring
      rw [hneg, inv_div]
      apply mul_le_mul_of_nonneg_left _ hp0.le
      apply Real.logb_le_logb_of_le (by norm_num) (div_pos hlen hcpos)
      exact div_le_self hlen.le hcount1R
    calc (∑ c ∈ text.toFinset,
          -(((text.count c : ℝ) / (text.length : ℝ)) *
            Real.logb 2 ((text.count c : ℝ) / (text.length : ℝ))))
        ≤ ∑ c ∈ text.toFinset,
            ((text.count c : ℝ) / (text.length : ℝ)) * Real.logb 2 (text.length : ℝ) :=
          Finset.sum_le_sum hstep
      _ = (∑ c ∈ text.toFinset, ((text.count c : ℝ) / (text.length : ℝ)))
            * Real.logb 2 (text.length : ℝ) := by rw [Finset.sum_mul]
      _ = Real.logb 2 (text.length : ℝ) := by
          have hsum : (∑ c ∈ text.toFinset, ((text.count c : ℝ) / (text.length : ℝ))) = 1 := by
            rw [← Finset.sum_div]
            rw [show (∑ c ∈ text.toFinset, (text.count c : ℝ))
                = ((∑ c ∈ text.toFinset, text.count c : ℕ) : ℝ) by push_cast; rfl]
            rw [List.sum_toFinset_count_eq_length]
            exact div_self (ne_of_gt hlen)
          rw [hsum, one_mul]

theorem logb_twenty_lt : Real.logb 2 (20 : ℝ) < 9/2 := by
  have h1 : Real.log ((20 : ℝ) ^ (2 : ℕ)) < Real.log ((2 : ℝ) ^ (9 : ℕ)) := by
    apply Real.log_lt_log (by norm_num)
    norm_num
  rw [Real.log_pow, Real.log_pow] at h1
  rw [Real.logb, div_lt_iff₀ (Real.log_pos one_lt_two)]
  push_cast at h1
  linarith

/-- A string whose entropy exceeds the threshold has more than twenty
characters, since entropy never exceeds the base two logarithm of the
length. -/
theorem length_gt_of_entropy (text : List Char)
    (h : (9/2 : ℝ) < calculate_entropy text) : 20 < text.length := by
  by_contra hle
  push_neg at hle
  have h2 := calculate_entropy_le_logb text
  have h3 : Real.logb 2 (text.length : ℝ) ≤ Real.logb 2 (20 : ℝ) := by
    rcases Nat.eq_zero_or_pos text.length with h0 | h0
    · rw [h0]
      push_cast
      rw [Real.logb_zero]
      exact Real.logb_nonneg (by norm_num) (by norm_num)
    · apply Real.logb_le_logb_of_le (by norm_num)
      · exact_mod_cast h0
      · exact_mod_cast hle
  have := logb_twenty_lt
  linarith

/- ------------------------------------------------------------------
Structure of the scan pipeline.
------------------------------------------------------------------ -/

theorem mem_pattern_detections {d : SecretDetector} {line : List Char} {n : ℕ}
    {det : Detection} (h : det ∈ pattern_detections d line n) :
    ∃ ps ∈ d.patterns, ∃ m ∈ finditer ps.re line,
      det = ⟨ps.name, sliceL line m.1 m.2, n, m.1, m.2, ps.severity,
          (calculate_confidence ps.name (sliceL line m.1 m.2) line : ℝ), trimL line⟩ ∧
        3/10 < calculate_confidence ps.name (sliceL line m.1 m.2) line := by
  unfold pattern_detections at h
  rw [List.mem_flatMap] at h
  obtain ⟨ps, hps, h⟩ := h
  rw [List.mem_filterMap] at h
  obtain ⟨m, hm, hsome⟩ := h
  refine ⟨ps, hps, m, hm, ?_⟩
  split_ifs at hsome with hctx hconf
  exact ⟨(Option.some.inj hsome).symm, hconf⟩

theorem mem_detect_high_entropy {d : SecretDetector} {text : List Char} {n : ℕ}
    {det : Detection} (h : det ∈ d.detect_high_entropy_strings text n) :
    ∃ m ∈ extractCandidates text,
      ((d.entropy_threshold : ℝ) < calculate_entropy m.2 ∧ 20 < m.2.length) ∧
        det = ⟨"high_entropy_string", m.2, n, m.1, m.1 + m.2.length, .medium,
          min (calculate_entropy m.2 / 6) 1, trimL text⟩ := by
  unfold SecretDetector.detect_high_entropy_strings at h
  rw [List.mem_filterMap] at h
  obtain ⟨m, hm, hsome⟩ := h
  refine ⟨m, hm, ?_⟩
  split_ifs at hsome with hcond
  exact ⟨hcond, (Option.some.inj hsome).symm⟩

theorem mem_scan_line {d : SecretDetector} {n : ℕ} {line : List Char} {det : Detection}
    (h : det ∈ scan_line d n line) :
    should_skip_line line = false ∧
      (det ∈ pattern_detections d line n ∨ det ∈ d.detect_high_entropy_strings line n) := by
  unfold scan_line at h
  split_ifs at h with hskip
  · simp at h
  · exact ⟨Bool.eq_false_iff.mpr hskip, List.mem_append.mp h⟩

theorem scan_line_line_number {d : SecretDetector} {n : ℕ} {line : List Char}
    {det : Detection} (h : det ∈ scan_line d n line) : det.line_number = n := by
  rcases (mem_scan_line h).2 with h | h
  · obtain ⟨ps, _, m, _, rfl, _⟩ := mem_pattern_detections h
    rfl
  · obtain ⟨m, _, _, rfl⟩ := mem_detect_high_entropy h
    rfl

theorem mem_scan_text {d : SecretDetector} {text : List Char} {det : Detection}
    (h : det ∈ d.scan_text text) :
    ∃ p ∈ List.enumFrom 1 (splitNL text), det ∈ scan_line d p.1 p.2 := by
  unfold SecretDetector.scan_text at h
  rw [List.mem_flatMap] at h
  exact h

theorem pairwise_of_mem {α : Type} {R : α → α → Prop} (l : List α)
    (h : ∀ a ∈ l, ∀ b ∈ l, R a b) : l.Pairwise R := by
  induction l with
  | nil => exact .nil
  | cons x xs ih =>
    refine List.pairwise_cons.mpr ⟨fun b hb => h x (by simp) b (by simp [hb]), ?_⟩
    exact ih (fun a ha b hb => h a (by simp [ha]) b (by simp [hb]))

theorem scan_line_pairwise (d : SecretDetector)
    (hnames : ∀ ps ∈ d.patterns, ps.name ≠ "high_entropy_string")
    (n : ℕ) (line : List Char) : (scan_line d n line).Pairwise detOrder := by
  unfold scan_line
  split_ifs
  · exact .nil
  · rw [List.pairwise_append]
    refine ⟨?_, ?_, ?_⟩
    · apply pairwise_of_mem
      intro a ha b hb
      obtain ⟨ps, hps, m, _, rfl, _⟩ := mem_pattern_detections ha
      obtain ⟨ps2, _, m2, _, rfl, _⟩ := mem_pattern_detections hb
      exact ⟨le_refl _, fun _ habs => absurd habs (hnames ps hps)⟩
    · apply pairwise_of_mem
      intro a ha b hb
      obtain ⟨m, _, _, rfl⟩ := mem_detect_high_entropy ha
      obtain ⟨m2, _, _, rfl⟩ := mem_detect_high_entropy hb
      exact ⟨le_refl _, fun _ _ => rfl⟩
    · intro a ha b hb
      obtain ⟨ps, hps, m, _, rfl, _⟩ := mem_pattern_detections ha
      obtain ⟨m2, _, _, rfl⟩ := mem_detect_high_entropy hb
      exact ⟨le_refl _, fun _ _ => rfl⟩

theorem scan_flat_lb (d : SecretDetector) (L : List (List Char)) :
    ∀ (k : ℕ) (det : Detection),
      det ∈ (List.enumFrom k L).flatMap (fun p => scan_line d p.1 p.2) →
        k ≤ det.line_number := by
  induction L with
  | nil => intro k det h; simp at h
  | cons x xs ih =>
    intro k det h
    rw [List.enumFrom_cons, List.flatMap_cons, List.mem_append] at h
    rcases h with h | h
    · rw [scan_line_line_number h]
    · have := ih (k + 1) det h
      omega

theorem scan_flat_pairwise (d : SecretDetector)
    (hnames : ∀ ps ∈ d.patterns, ps.name ≠ "high_entropy_string")
    (L : List (List Char)) :
    ∀ k : ℕ, ((List.enumFrom k L).flatMap (fun p => scan_line d p.1 p.2)).Pairwise detOrder := by
  induction L with
  | nil => intro k; simp
  | cons x xs ih =>
    intro k
    rw [List.enumFrom_cons, List.flatMap_cons, List.pairwise_append]
    refine ⟨scan_line_pairwise d hnames k x, ih (k + 1), ?_⟩
    intro a ha b hb
    have hb1 := scan_flat_lb d xs (k + 1) b hb
    have ha1 := scan_line_line_number ha
    refine ⟨by omega, ?_⟩
    intro heq _
    exfalso
    omega

/- ------------------------------------------------------------------
Shape of the entropy candidates.
------------------------------------------------------------------ -/

theorem takeWhile_take_eq (p : Char → Bool) : ∀ l : List Char,
    l.take (l.takeWhile p).length = l.takeWhile p := by
  intro l
  induction l with
  | nil => rfl
  | cons c t ih =>
    by_cases hc : p c
    · simp [List.takeWhile_cons, hc, ih]
    · simp [List.takeWhile_cons, hc]

theorem padsTake (X : List Char) (q : Char → Bool) :
    X.take (((X.takeWhile q).take 2).length) = (X.takeWhile q).take 2 := by
  conv_rhs => rw [← takeWhile_take_eq q X]
  rw [List.take_take, List.length_take]

/-- Every candidate of the entropy extractor is a base64 alphabet run of
at least twenty characters followed by at most two padding characters. -/
theorem extractGo_shape : ∀ (f : ℕ) (l : List Char) (i : ℕ) (m : ℕ × List Char),
    m ∈ extractGo f l i →
      ∃ run pads, m.2 = run ++ pads ∧ 20 ≤ run.length ∧
        (∀ c ∈ run, isB64 c = true) ∧ (∀ c ∈ pads, c = '=') ∧ pads.length ≤ 2 := by
  intro f
  induction f with
  | zero => intro l i m h; simp [extractGo] at h
  | succ f ih =>
    intro l i m h
    cases l with
    | nil => simp [extractGo] at h
    | cons c rest =>
      simp only [extractGo] at h
      by_cases hb : isB64 c
      · rw [if_pos hb] at h
        by_cases hlen : 20 ≤ ((c :: rest).takeWhile isB64).length
        · rw [if_pos hlen] at h
          rcases List.mem_cons.mp h with rfl | h
          · refine ⟨(c :: rest).takeWhile isB64,
              (((c :: rest).drop ((c :: rest).takeWhile isB64).length).takeWhile
                (fun x => x = '=')).take 2, rfl, hlen, ?_, ?_, ?_⟩
            · exact fun x hx => List.mem_takeWhile_imp hx
            · intro x hx
              have hx2 := List.mem_takeWhile_imp (List.mem_of_mem_take hx)
              simpa using hx2
            · rw [List.length_take]
              omega
          · exact ih _ _ m h
        · rw [if_neg hlen] at h
          exact ih _ _ m h
      · rw [if_neg hb] at h
        exact ih _ _ m h

/-- Every candidate really occurs in the line at its reported offset. -/
theorem extractGo_slice (line : List Char) : ∀ (f : ℕ) (l : List Char) (i : ℕ),
    l = line.drop i → ∀ m ∈ extractGo f l i, (line.drop m.1).take m.2.length = m.2 := by
  intro f
  induction f with
  | zero => intro l i _ m h; simp [extractGo] at h
  | succ f ih =>
    intro l i hl m h
    cases l with
    | nil => simp [extractGo] at h
    | cons c rest =>
      simp only [extractGo] at h
      by_cases hb : isB64 c
      · rw [if_pos hb] at h
        by_cases hlen : 20 ≤ ((c :: rest).takeWhile isB64).length
        · rw [if_pos hlen] at h
          rcases List.mem_cons.mp h with rfl | h
          · show (line.drop i).take _ = _
            rw [← hl, List.length_append, List.take_add]
            congr 1
            · exact takeWhile_take_eq isB64 (c :: rest)
            · exact padsTake ((c :: rest).drop ((c :: rest).takeWhile isB64).length)
                (fun x => x = '=')
          · refine ih _ _ ?_ m h
            rw [hl, List.drop_drop]
            congr 1
            omega
        · rw [if_neg hlen] at h
          refine ih _ _ ?_ m h
          rw [hl, List.drop_drop]
      · rw [if_neg hb] at h
        refine ih _ _ ?_ m h
        have h1 : line.drop (i + 1) = rest := by
          rw [← List.drop_drop, ← hl]
          rfl
        exact h1.symm

/- ------------------------------------------------------------------
Per line consequences of the line filter.
------------------------------------------------------------------ -/

theorem scan_line_of_skip (d : SecretDetector) (n : ℕ) (line : List Char)
    (h : should_skip_line line = true) : scan_line d n line = [] := by
  unfold scan_line
  rw [if_pos h]

theorem skip_of_trim_empty (line : List Char) (h : trimL line = []) :
    should_skip_line line = true := by
  simp [should_skip_line, h, lowerL]

theorem skip_of_hash (line : List Char) (t : List Char) (h : trimL line = '#' :: t) :
    should_skip_line line = true := by
  have h35 : toLowerA '#' = '#' := rfl
  simp [should_skip_line, h, lowerL, startsWithL, h35]

theorem filterMap_single_emit {α β : Type} {f : α → Option β} {m : α} {det : β}
    (h : f m = some det) : List.filterMap f [m] = [det] := by
  rw [List.filterMap_cons, h]
  rfl

theorem detect_eq_nil_of_short (d : SecretDetector) (line : List Char) (n : ℕ)
    (h : ∀ m ∈ extractCandidates line, m.2.length ≤ 20) :
    d.detect_high_entropy_strings line n = [] := by
  unfold SecretDetector.detect_high_entropy_strings
  rw [List.filterMap_eq_nil_iff]
  intro m hm
  rw [if_neg]
  rintro ⟨-, h20⟩
  exact absurd h20 (not_lt.mpr (h m hm))

/-- Full evaluation of the scan of the AKIA test vector. -/
theorem scan_akia :
    SecretDetector.init.scan_text (("AKIA1234567890ABCD1X").data) = [awsDetection] := by
  have e1 : finditer awsAccessKeyRE (("AKIA1234567890ABCD1X").data) = [(0, 20)] := by decide
  have e2 : finditer awsSecretKeyRE (("AKIA1234567890ABCD1X").data) = [] := by decide
  have e3 : finditer privateKeyRE (("AKIA1234567890ABCD1X").data) = [] := by decide
  have e4 : finditer jwtTokenRE (("AKIA1234567890ABCD1X").data) = [] := by decide
  have e5 : finditer githubTokenRE (("AKIA1234567890ABCD1X").data) = [] := by decide
  have e6 : finditer openaiApiKeyRE (("AKIA1234567890ABCD1X").data) = [] := by decide
  have e7 : finditer stripeKeyRE (("AKIA1234567890ABCD1X").data) = [] := by decide
  have e8 : finditer slackTokenRE (("AKIA1234567890ABCD1X").data) = [] := by decide
  have e9 : finditer databaseUrlRE (("AKIA1234567890ABCD1X").data) = [] := by decide
  have e10 : finditer emailRE (("AKIA1234567890ABCD1X").data) = [] := by decide
  have e11 : finditer phoneNumberRE (("AKIA1234567890ABCD1X").data) = [] := by decide
  have e12 : finditer creditCardRE (("AKIA1234567890ABCD1X").data) = [] := by decide
  have e13 : finditer ssnRE (("AKIA1234567890ABCD1X").data) = [] := by decide
  have hconf : calculate_confidence "aws_access_key"
      (sliceL (("AKIA1234567890ABCD1X").data) 0 20) (("AKIA1234567890ABCD1X").data)
      = 9/10 := rfl
  have hent := detect_eq_nil_of_short SecretDetector.init
    (("AKIA1234567890ABCD1X").data) 1 (by decide)
  have hsplit : List.enumFrom 1 (splitNL (("AKIA1234567890ABCD1X").data)) =
      [(1, ("AKIA1234567890ABCD1X").data)] := by decide
  unfold SecretDetector.scan_text
  rw [hsplit, List.flatMap_cons, List.flatMap_nil, List.append_nil]
  unfold scan_line
  rw [if_neg (by decide : ¬ should_skip_line (("AKIA1234567890ABCD1X").data) = true)]
  rw [hent, List.append_nil]
  unfold pattern_detections
  simp only [SecretDetector.init, load_patterns, List.flatMap_cons, List.flatMap_nil]
  rw [e1, e2, e3, e4, e5, e6, e7, e8, e9, e10, e11, e12, e13]
  simp only [List.filterMap_nil, List.append_nil, List.nil_append]
  apply filterMap_single_emit
  show (if (3 : ℚ)/10 < calculate_confidence "aws_access_key"
      (sliceL (("AKIA1234567890ABCD1X").data) 0 20) (("AKIA1234567890ABCD1X").data)
    then some awsDetection else none) = some awsDetection
  rw [if_pos]
  rw [hconf]
  norm_num

/- ------------------------------------------------------------------
Claim theorems.
------------------------------------------------------------------ -/

/-- C1: the confidence scorer agrees with the reference scorer of the
specification on every pattern name, matched value and line context, and
its result always lies between zero and one. -/
theorem C1_scorer_matches_reference :
    ∀ (pattern_name : String) (value context : List Char),
      calculate_confidence pattern_name value context =
          confidenceSpec pattern_name value context ∧
        0 ≤ calculate_confidence pattern_name value context ∧
        calculate_confidence pattern_name value context ≤ 1 := by
  intro pn v ctx
  refine ⟨?_, (calculate_confidence_bounds pn v ctx).1,
    (calculate_confidence_bounds pn v ctx).2⟩
  unfold calculate_confidence confidenceSpec
  simp only [List.mem_cons, List.mem_singleton, List.not_mem_nil, or_false]

/-- C3, counterexample: contrary to the claim, no input line at all can
both survive the line filter and contain one of the four de-weighting
keywords, because those keywords are a subset of the line filter
keywords and both checks are substring checks; hence the times 0.3
branch is unreachable inside a scan. -/
theorem C3_counterexample :
    ¬ ∃ line : List Char,
        should_skip_line line = false ∧
          (["test", "example", "dummy", "fake"] : List String).any
            (fun w => containsSub w.data (lowerL line)) = true := by
  rintro ⟨line, hs, hany⟩
  rw [kw_in_line_skips line hany] at hs
  exact Bool.noConfusion hs

/-- C3, amended: any line whose lowercase form contains one of the four
de-weighting keywords is skipped outright by the line filter, so inside
scan_text the times 0.3 adjustment never fires and such a line is
neither pattern scanned nor entropy scanned; the adjustment is reachable
only by calling the scorer directly. -/
theorem C3_deweight_unreachable_in_scan :
    ∀ (line : List Char),
      (["test", "example", "dummy", "fake"] : List String).any
        (fun w => containsSub w.data (lowerL line)) = true →
        should_skip_line line = true ∧
          ∀ n : ℕ, scan_line SecretDetector.init n line = [] := by
  intro line h
  have hs := kw_in_line_skips line h
  exact ⟨hs, fun n => scan_line_of_skip _ n line hs⟩

theorem C3_witness :
    (["test", "example", "dummy", "fake"] : List String).any
      (fun w => containsSub w.data (lowerL (("my latest key").data))) = true ∧
      should_skip_line (("my latest key").data) = true :=
  ⟨by decide, (C3_deweight_unreachable_in_scan (("my latest key").data) (by decide)).1⟩

/-- C7: scanning is deterministic; in this pure embedding the
constructor is a fixed value, so a reused instance and two freshly
constructed instances give syntactically equal scans. -/
theorem C7_scan_deterministic :
    ∀ (text : List Char),
      SecretDetector.init.scan_text text = SecretDetector.init.scan_text text ∧
        ∀ d1 d2 : SecretDetector, d1 = SecretDetector.init → d2 = SecretDetector.init →
          d1.scan_text text = d2.scan_text text := by
  intro text
  exact ⟨rfl, fun d1 d2 h1 h2 => by rw [h1, h2]⟩

theorem C7_witness :
    SecretDetector.init.scan_text (("x").data) = SecretDetector.init.scan_text (("x").data) :=
  (C7_scan_deterministic (("x").data)).2 SecretDetector.init SecretDetector.init rfl rfl

/-- C8: a line that is empty after trimming, or whose trimmed form
begins with a hash sign, contributes no detections: its per line scan is
empty, and scan_text is exactly the concatenation of the per line scans
in line order. -/
theorem C8_comment_lines_contribute_nothing :
    (∀ text : List Char,
        SecretDetector.init.scan_text text =
          (List.enumFrom 1 (splitNL text)).flatMap
            (fun p => scan_line SecretDetector.init p.1 p.2)) ∧
      ∀ (n : ℕ) (line : List Char),
        ((trimL line).isEmpty = true ∨ startsWithL ['#'] (trimL line) = true) →
          scan_line SecretDetector.init n line = [] := by
  refine ⟨fun text => rfl, ?_⟩
  intro n line h
  apply scan_line_of_skip
  rcases h with h | h
  · exact skip_of_trim_empty line (List.isEmpty_iff.mp h)
  · obtain ⟨t, ht⟩ := (startsWithL_iff ['#'] (trimL line)).mp h
    exact skip_of_hash line t (by simpa using ht)

theorem C8_witness :
    startsWithL ['#'] (trimL (("# AKIA1234567890ABCD1X").data)) = true ∧
      scan_line SecretDetector.init 1 (("# AKIA1234567890ABCD1X").data) = [] :=
  ⟨by decide, C8_comment_lines_contribute_nothing.2 1 (("# AKIA1234567890ABCD1X").data)
    (Or.inr (by decide))⟩

/-- C9: on any line the filter does not skip, the scorer returns one of
six values, each strictly above the emission threshold, so the threshold
never discards a pattern match inside a scan. -/
theorem C9_threshold_never_discards :
    ∀ (pattern_name : String) (value line : List Char),
      should_skip_line line = false →
        calculate_confidence pattern_name value line ∈
            ([3/5, 7/10, 9/10, 18/25, 21/25, 1] : List ℚ) ∧
          3/10 < calculate_confidence pattern_name value line :=
  fun pn v l h => calculate_confidence_of_not_skip pn v l h

theorem C9_witness :
    should_skip_line (("abc").data) = false ∧
      (calculate_confidence ("ssn") [] (("abc").data) ∈
          ([3/5, 7/10, 9/10, 18/25, 21/25, 1] : List ℚ) ∧
        3/10 < calculate_confidence ("ssn") [] (("abc").data)) :=
  ⟨by decide, C9_threshold_never_discards ("ssn") [] (("abc").data) (by decide)⟩

/-- C10: removing the explicit length conjunct from the entropy detector
changes nothing, because entropy above 4.5 already forces a length above
twenty via the logarithmic entropy bound. -/
theorem C10_length_check_redundant :
    ∀ (text : List Char) (n : ℕ),
      detect_high_entropy_noLength SecretDetector.init text n =
        SecretDetector.init.detect_high_entropy_strings text n := by
  intro text n
  unfold detect_high_entropy_noLength SecretDetector.detect_high_entropy_strings
  congr 1
  funext m
  by_cases hc : (SecretDetector.init.entropy_threshold : ℝ) < calculate_entropy m.2
  · have h2 : 20 < m.2.length := by
      apply length_gt_of_entropy
      have h3 : ((9/2 : ℚ) : ℝ) < calculate_entropy m.2 := hc
      push_cast at h3
      exact h3
    rw [if_pos hc, if_pos ⟨hc, h2⟩]
  · rw [if_neg hc, if_neg (fun hand => hc hand.1)]

/-- C2: every detection of a scan has confidence in the unit interval
and a strictly increasing column span. -/
theorem C2_detection_invariants :
    ∀ (text : List Char) (det : Detection),
      det ∈ SecretDetector.init.scan_text text →
        (0 ≤ det.confidence ∧ det.confidence ≤ 1) ∧
          det.column_start < det.column_end := by
  intro text det h
  obtain ⟨p, hp, hline⟩ := mem_scan_text h
  rcases (mem_scan_line hline).2 with hd | hd
  · obtain ⟨ps, hps, m, hm, rfl, hconf⟩ := mem_pattern_detections hd
    refine ⟨⟨?_, ?_⟩, ?_⟩
    · show (0 : ℝ) ≤ ((calculate_confidence ps.name (sliceL p.2 m.1 m.2) p.2 : ℚ) : ℝ)
      have hb := (calculate_confidence_bounds ps.name (sliceL p.2 m.1 m.2) p.2).1
      exact_mod_cast hb
    · show ((calculate_confidence ps.name (sliceL p.2 m.1 m.2) p.2 : ℚ) : ℝ) ≤ 1
      have hb := (calculate_confidence_bounds ps.name (sliceL p.2 m.1 m.2) p.2).2
      exact_mod_cast hb
    · have h1 := finditer_sound ps.re p.2 m hm
      have h2 : 1 ≤ minLen ps.re := load_patterns_minLen ps hps
      show m.1 < m.2
      omega
  · obtain ⟨m, hm, ⟨hent, hlen⟩, rfl⟩ := mem_detect_high_entropy hd
    refine ⟨⟨?_, ?_⟩, ?_⟩
    · apply le_min
      · exact div_nonneg (calculate_entropy_nonneg m.2) (by norm_num)
      · norm_num
    · exact min_le_right _ _
    · show m.1 < m.1 + m.2.length
      omega

theorem C2_witness :
    awsDetection ∈ SecretDetector.init.scan_text (("AKIA1234567890ABCD1X").data) ∧
      ((0 ≤ awsDetection.confidence ∧ awsDetection.confidence ≤ 1) ∧
        awsDetection.column_start < awsDetection.column_end) := by
  have hmem : awsDetection ∈ SecretDetector.init.scan_text (("AKIA1234567890ABCD1X").data) := by
    rw [scan_akia]
    exact List.mem_singleton.mpr rfl
  exact ⟨hmem, C2_detection_invariants (("AKIA1234567890ABCD1X").data) awsDetection hmem⟩

open scoped Classical in
/-- C4: the entropy detector emits exactly one detection for each
extracted candidate whose entropy exceeds 4.5 and whose length exceeds
twenty, with the stated type, severity, confidence, offsets and context;
and every extracted candidate is a base64 run of at least twenty
characters plus at most two padding equals signs sitting at its reported
offset in the line. -/
theorem C4_entropy_detector_characterised :
    ∀ (line : List Char) (n : ℕ),
      SecretDetector.init.detect_high_entropy_strings line n =
          (extractCandidates line).filterMap (fun m =>
            if ((9/2 : ℚ) : ℝ) < calculate_entropy m.2 ∧ 20 < m.2.length then
              some ⟨"high_entropy_string", m.2, n, m.1, m.1 + m.2.length,
                SeverityLevel.medium, min (calculate_entropy m.2 / 6) 1, trimL line⟩
            else none) ∧
        ∀ m ∈ extractCandidates line,
          (∃ run pads, m.2 = run ++ pads ∧ 20 ≤ run.length ∧
            (∀ c ∈ run, isB64 c = true) ∧ (∀ c ∈ pads, c = '=') ∧ pads.length ≤ 2) ∧
          (line.drop m.1).take m.2.length = m.2 := by
  intro line n
  constructor
  · rfl
  · intro m hm
    have hm2 : m ∈ extractGo (line.length + 1) line 0 := hm
    refine ⟨extractGo_shape _ _ _ m hm2, ?_⟩
    exact extractGo_slice line _ line 0 (List.drop_zero line).symm m hm2

theorem C4_witness :
    ((3, ("abcdefghijklmnopqrstuv==").data) : ℕ × List Char) ∈
        extractCandidates (("xx abcdefghijklmnopqrstuv== yy").data) ∧
      ((∃ run pads, (("abcdefghijklmnopqrstuv==").data : List Char) = run ++ pads ∧
          20 ≤ run.length ∧ (∀ c ∈ run, isB64 c = true) ∧
          (∀ c ∈ pads, c = '=') ∧ pads.length ≤ 2) ∧
        ((("xx abcdefghijklmnopqrstuv== yy").data).drop 3).take
            (("abcdefghijklmnopqrstuv==").data).length =
          ("abcdefghijklmnopqrstuv==").data) :=
  ⟨by decide,
    (C4_entropy_detector_characterised (("xx abcdefghijklmnopqrstuv== yy").data) 1).2
      (3, ("abcdefghijklmnopqrstuv==").data) (by decide)⟩

/-- C5: the scan result is the in order concatenation of the per line
results, each of which lists the pattern detections in registry order
before the entropy detections; consequently line numbers are ascending
and within a line no pattern detection follows an entropy detection. -/
theorem C5_scan_ordering :
    ∀ text : List Char,
      SecretDetector.init.scan_text text =
          (List.enumFrom 1 (splitNL text)).flatMap (fun p =>
            if should_skip_line p.2 then []
            else pattern_detections SecretDetector.init p.2 p.1 ++
              SecretDetector.init.detect_high_entropy_strings p.2 p.1) ∧
        (SecretDetector.init.scan_text text).Pairwise detOrder := by
  intro text
  constructor
  · rfl
  · exact scan_flat_pairwise SecretDetector.init load_patterns_name (splitNL text) 1

/-- C6: scanning the single AKIA line yields exactly one detection; it
has type aws_access_key, severity high, confidence 0.9 which is at least
0.3, and it is not an entropy detection. -/
theorem C6_akia_single_detection :
    SecretDetector.init.scan_text (("AKIA1234567890ABCD1X").data) = [awsDetection] ∧
      awsDetection.type = "aws_access_key" ∧
      awsDetection.severity = SeverityLevel.high ∧
      ((3/10 : ℚ) : ℝ) ≤ awsDetection.confidence ∧
      awsDetection.type ≠ "high_entropy_string" := by
  refine ⟨scan_akia, rfl, rfl, ?_, by decide⟩
  show ((3/10 : ℚ) : ℝ) ≤ ((9/10 : ℚ) : ℝ)
  exact_mod_cast (by norm_num : (3 : ℚ)/10 ≤ 9/10)
